import Mathlib

/-!
Verification of the Bricksmith path-addressing and transformation-pipeline
core (src/utils.ts and src/bricksmith.ts) against its specification.

JavaScript values are modelled by the tree type `JVal`.  A JavaScript array
is modelled as its index elements (`JList`) together with its non-index
string-keyed own properties (`JProps`); such properties arise in the source
whenever a bracket segment's content does not coerce to a valid array index
(`Number` yields `NaN`, a negative or a non-integer) and the code then reads
or writes `arr[index]`, which JavaScript turns into a plain property access.
Array holes are modelled as `undef` elements, and the own `length` property
of arrays is modelled for reads only.  Prototype-chain lookups (for example
index properties of boxed strings) are not modelled: documents are treated
as data built from plain objects, arrays and scalars, as the specification's
data model states.  Numbers are modelled as integers.
-/

mutual

inductive JVal where
  | undef
  | null
  | bool (b : Bool)
  | num (n : Int)
  | str (s : String)
  | arr (elems : JList) (props : JProps)
  | obj (fields : JProps)
deriving DecidableEq, Repr

inductive JList where
  | nil
  | cons (head : JVal) (tail : JList)
deriving DecidableEq, Repr

inductive JProps where
  | nil
  | cons (key : String) (val : JVal) (tail : JProps)
deriving DecidableEq, Repr

end

def JList.ofList : List JVal → JList
  | [] => .nil
  | x :: xs => .cons x (JList.ofList xs)

def JProps.ofList : List (String × JVal) → JProps
  | [] => .nil
  | (k, v) :: rest => .cons k v (JProps.ofList rest)

/-- Shorthand for a concrete JavaScript array value (no extra properties). -/
def jarr (l : List JVal) : JVal := .arr (JList.ofList l) .nil

/-- Shorthand for a concrete JavaScript object value. -/
def jobj (l : List (String × JVal)) : JVal := .obj (JProps.ofList l)

def JList.length : JList → Nat
  | .nil => 0
  | .cons _ xs => xs.length + 1

/-- Element read `arr[n]`; past the end it is `undefined`. -/
def JList.get : JList → Nat → JVal
  | .nil, _ => .undef
  | .cons x _, 0 => x
  | .cons _ xs, n + 1 => xs.get n

/-- Element write `arr[n] = v` for an index already inside the array. -/
def JList.set : JList → Nat → JVal → JList
  | .nil, _, _ => .nil
  | .cons _ xs, 0, v => .cons v xs
  | .cons x xs, n + 1, v => .cons x (xs.set n v)

def JList.append : JList → JList → JList
  | .nil, ys => ys
  | .cons x xs, ys => .cons x (xs.append ys)

def JList.replicate : Nat → JVal → JList
  | 0, _ => .nil
  | n + 1, v => .cons v (JList.replicate n v)

/-- `while (arr.length <= n) arr.push(undefined)`. -/
def JList.padTo (xs : JList) (n : Nat) : JList :=
  if n + 1 ≤ xs.length then xs
  else xs.append (JList.replicate (n + 1 - xs.length) .undef)

/-- `arr.splice(n, 1)` for an in-range index. -/
def JList.eraseIdx : JList → Nat → JList
  | .nil, _ => .nil
  | .cons _ xs, 0 => xs
  | .cons x xs, n + 1 => .cons x (xs.eraseIdx n)

def JList.mapF (f : JVal → JVal) : JList → JList
  | .nil => .nil
  | .cons x xs => .cons (f x) (JList.mapF f xs)

/-- Own-property lookup in a plain object's field list. -/
def JProps.aget : JProps → String → Option JVal
  | .nil, _ => none
  | .cons k v rest, key => if k = key then some v else rest.aget key

/-- Own-property assignment: updates the key in place or appends it,
matching JavaScript object key insertion order. -/
def JProps.aset : JProps → String → JVal → JProps
  | .nil, key, v => .cons key v .nil
  | .cons k w rest, key, v =>
    if k = key then .cons key v rest else .cons k w (rest.aset key v)

/-- `delete o[key]`. -/
def JProps.adelete : JProps → String → JProps
  | .nil, _ => .nil
  | .cons k v rest, key =>
    if k = key then rest.adelete key else .cons k v (rest.adelete key)

def JProps.mapValsF (f : JVal → JVal) : JProps → JProps
  | .nil => .nil
  | .cons k v rest => .cons k (f v) (rest.mapValsF f)

def JProps.append : JProps → JProps → JProps
  | .nil, ps => ps
  | .cons k v rest, ps => .cons k v (rest.append ps)

/-- JavaScript truthiness of a document value. -/
def truthy : JVal → Bool
  | .undef => false
  | .null => false
  | .bool b => b
  | .num n => decide (n ≠ 0)
  | .str s => decide (s ≠ "")
  | .arr _ _ => true
  | .obj _ => true

/-! ## Path parser (`parsePath` and helpers from src/utils.ts) -/

/-- `path.includes('\\.')` on the character list. -/
def hasEscSeq : List Char → Bool
  | '\\' :: '.' :: _ => true
  | _ :: rest => hasEscSeq rest
  | [] => false

/-- `path.replace(/\\./g, '.')`: every escape marker `\.` becomes `.`. -/
def stripEscapes : List Char → List Char
  | '\\' :: '.' :: rest => '.' :: stripEscapes rest
  | c :: rest => c :: stripEscapes rest
  | [] => []

/-- `isEscapedPath` from src/utils.ts. -/
def isEscapedPath (path : String) : Bool := hasEscSeq path.data

/-- The character scanner inside `parsePath`: walks the path left to right
carrying the current segment and the in-brackets flag, emitting segments in
order (the source pushes them onto a result array; emission order is the
same). -/
def scanParts : List Char → String → Bool → List String
  | [], cur, _ => if cur = "" then [] else [cur]
  | '\\' :: '.' :: rest, cur, inB => scanParts rest (cur.push '.') inB
  | c :: rest, cur, inB =>
    if c = '[' && !inB then
      (if cur = "" then [] else [cur]) ++ scanParts rest (String.push "" '[') true
    else if c = ']' && inB then
      (cur.push ']') :: scanParts rest "" false
    else if c = '.' && !inB then
      (if cur = "" then [] else [cur]) ++ scanParts rest "" false
    else
      scanParts rest (cur.push c) inB

/-- `parsePath` from src/utils.ts. -/
def parsePath (path : String) : List String :=
  if path = "" then []
  else if isEscapedPath path then [String.mk (stripEscapes path.data)]
  else scanParts path.data "" false

/-- `isArrayWildcard` from src/utils.ts. -/
def isArrayWildcard (part : String) : Bool := part = "[*]" || part = "*"

/-- `isObjectWildcard` from src/utils.ts. -/
def isObjectWildcard (part : String) : Bool := part = ".*." || part = "*"

/-- `isArrayIndex` from src/utils.ts: `part.startsWith('[') && part.endsWith(']')`. -/
def isArrayIndex (part : String) : Bool :=
  part.data.head? = some '[' && part.data.getLast? = some ']'

/-- Result of coercing a bracket segment's content with `Number`: either a
valid non-negative integer array index, or the canonical property key the
number stringifies to (`"NaN"`, `"-3"`, ...). -/
inductive JsIdx where
  | nat (n : Nat)
  | key (s : String)
deriving DecidableEq, Repr

/-- Decimal digits of `n`, most significant first; the fuel dominates `n`
so that the recursion is structural and `n + 1` fuel always suffices. -/
def natDigitsGo : Nat → Nat → List Char
  | 0, _ => []
  | f + 1, n =>
    if n < 10 then [Char.ofNat (48 + n)]
    else natDigitsGo f (n / 10) ++ [Char.ofNat (48 + n % 10)]

/-- Decimal numeral of `n` (the `String(i)` key of an array spread). -/
def natToString (n : Nat) : String := String.mk (natDigitsGo (n + 1) n)

def natOfDigits (ds : List Char) : Nat :=
  ds.foldl (fun acc c => acc * 10 + (c.toNat - '0'.toNat)) 0

/-- `Number(s)` of a bracket content, restricted to the decimal integer
numerals the source exercises: surrounding whitespace is trimmed, the empty
string is 0, an optional sign precedes the digits.  Other numeric formats
(hexadecimal, fractions, exponents, `Infinity`) are not modelled and are
mapped to the `NaN` key, which yields the same no-index property behaviour. -/
def jsNumberIdx (cs : List Char) : JsIdx :=
  let t := ((cs.dropWhile Char.isWhitespace).reverse.dropWhile Char.isWhitespace).reverse
  match t with
  | [] => .nat 0
  | '+' :: ds =>
    if ds ≠ [] ∧ ds.all Char.isDigit then .nat (natOfDigits ds) else .key "NaN"
  | '-' :: ds =>
    if ds ≠ [] ∧ ds.all Char.isDigit then
      if natOfDigits ds = 0 then .nat 0
      else .key (String.mk ('-' :: natDigitsGo (natOfDigits ds + 1) (natOfDigits ds)))
    else .key "NaN"
  | ds =>
    if ds.all Char.isDigit then .nat (natOfDigits ds) else .key "NaN"

/-- `getArrayIndex` from src/utils.ts: `Number(part.slice(1, -1))`. -/
def getArrayIndex (part : String) : JsIdx :=
  jsNumberIdx ((part.data.drop 1).dropLast)

/-- The canonical array-index strings: `"0"`, `"1"`, ... (no leading zeros,
no sign).  JavaScript treats exactly these property keys as array indices. -/
def decIndex? (k : String) : Option Nat :=
  match k.data with
  | [] => none
  | c :: rest =>
    if (c :: rest).all Char.isDigit ∧ (c ≠ '0' ∨ rest = []) then
      some (natOfDigits (c :: rest))
    else none

/-! ## Property access on values -/

/-- `v[k]` for a plain string key: own fields of objects; for arrays a
canonical index key reads the element, `length` reads the length, anything
else reads a non-index property.  Primitives yield `undefined`. -/
def jsGetProp : JVal → String → JVal
  | .obj fields, k => (fields.aget k).getD .undef
  | .arr xs ps, k =>
    (match decIndex? k with
     | some n => if n + 1 ≤ xs.length then xs.get n else .undef
     | none => if k = "length" then .num xs.length else (ps.aget k).getD .undef)
  | _, _ => (.undef)

/-- `arr[index]` for a bracket segment's coerced index. -/
def jsIdxGet (xs : JList) (ps : JProps) : JsIdx → JVal
  | .nat n => if n + 1 ≤ xs.length then xs.get n else .undef
  | .key s => (ps.aget s).getD (.undef)

/-- `Object.prototype.hasOwnProperty.call(v, k)`.  The own `length` property
of arrays is not modelled here (it is never an addressed document key). -/
def hasOwnProperty : JVal → String → Bool
  | .obj fields, k => (fields.aget k).isSome
  | .arr xs ps, k =>
    (match decIndex? k with
     | some n => n + 1 ≤ xs.length
     | none => (ps.aget k).isSome)
  | _, _ => false

/-- `v[k] = value` on an object or array (used by the direct-key fast path
of `setValueByPath`); writing a canonical index key at or past the end
extends the array, with holes modelled as `undefined`. -/
def jsSetProp : JVal → String → JVal → JVal
  | .obj fields, k, v => .obj (fields.aset k v)
  | .arr xs ps, k, v =>
    (match decIndex? k with
     | some n => .arr ((xs.padTo n).set n v) ps
     | none => .arr xs (ps.aset k v))
  | other, _, _ => other

/-! ## `deepClone` from src/utils.ts -/

mutual

def deepClone : JVal → JVal
  | .arr xs _ => .arr (deepCloneList xs) .nil
  | .obj fields => .obj (deepCloneProps fields)
  | v => v

/-- `Array.prototype.map` over the clone: index elements only, so the
clone of an array drops its non-index properties. -/
def deepCloneList : JList → JList
  | .nil => .nil
  | .cons x xs => .cons (deepClone x) (deepCloneList xs)

def deepCloneProps : JProps → JProps
  | .nil => .nil
  | .cons k v rest => .cons k (deepClone v) (deepCloneProps rest)

end

/-! ## `JSON.parse(JSON.stringify(data))` as used by `applyPlugin` -/

mutual

/-- JSON round trip: object keys holding `undefined` are dropped, array
elements holding `undefined` become `null`, array non-index properties are
dropped.  A top-level `undefined` would make `JSON.parse` throw, but that
point is unreachable in `applyPlugin` (an undefined document always skips at
the source-value check first), so it is mapped to itself. -/
def jsonRoundTrip : JVal → JVal
  | .arr xs _ => .arr (jsonRoundTripList xs) .nil
  | .obj fields => .obj (jsonRoundTripProps fields)
  | v => v

def jsonRoundTripList : JList → JList
  | .nil => .nil
  | .cons .undef xs => .cons .null (jsonRoundTripList xs)
  | .cons x xs => .cons (jsonRoundTrip x) (jsonRoundTripList xs)

def jsonRoundTripProps : JProps → JProps
  | .nil => .nil
  | .cons _ .undef rest => jsonRoundTripProps rest
  | .cons k v rest => .cons k (jsonRoundTrip v) (jsonRoundTripProps rest)

end

/-! ## `getValueByPath` from src/utils.ts -/

/-- `parts.slice(i + 1).join('.')`. -/
def joinDots (parts : List String) : String := String.intercalate "." parts

/-- The segment loop of `getValueByPath`.  The wildcard fan-out re-enters
`getValueByPath` on the re-joined remaining path; that re-entry is the
`reenter` parameter. -/
def walkParts (reenter : JVal → String → JVal) : JVal → List String → JVal
  | cur, [] => cur
  | cur, part :: rest =>
    if cur = .undef || cur = .null then .undef
    else if isArrayWildcard part then
      match cur with
      | .arr xs ps =>
        if rest = [] then .arr xs ps
        else .arr (xs.mapF (fun item => reenter item (joinDots rest))) .nil
      | _ => .undef
    else if isObjectWildcard part then
      match cur with
      | .obj fields =>
        if rest = [] then .obj fields
        else .obj (fields.mapValsF (fun v => reenter v (joinDots rest)))
      | _ => .undef
    else if isArrayIndex part then
      match cur with
      | .arr xs ps => walkParts reenter (jsIdxGet xs ps (getArrayIndex part)) rest
      | _ => .undef
    else
      walkParts reenter (jsGetProp cur part) rest

/-- `getValueByPath` with explicit fuel for the wildcard re-entry.  One fuel
unit is spent per re-entry, and a path of length L has at most L segments,
so `L + 1` fuel always suffices; exhaustion returns `undefined`. -/
def getVF : Nat → JVal → String → JVal
  | 0, _, _ => .undef
  | f + 1, obj, path =>
    if truthy obj = false || path = "" then .undef
    else if hasOwnProperty obj path then jsGetProp obj path
    else walkParts (getVF f) obj (parsePath path)

/-- `getValueByPath` from src/utils.ts. -/
def getValueByPath (obj : JVal) (path : String) : JVal :=
  getVF (path.length + 1) obj path

/-! ## `setValueByPath` from src/utils.ts -/

/-- `isArrayIndex(nextPart) || isArrayWildcard(nextPart) ? [] : {}`. -/
def containerFor (nextPart : String) : JVal :=
  if isArrayIndex nextPart || isArrayWildcard nextPart then .arr .nil .nil
  else .obj .nil

/-- Index-keyed fields of an array spread `{...arr}`. -/
def indexProps (i : Nat) : JList → JProps
  | .nil => .nil
  | .cons x xs => .cons (natToString i) x (indexProps (i + 1) xs)

/-- Object spread `{...v}`: an object's own fields; an array contributes its
index keys and then its non-index properties; a primitive contributes
nothing (spreading a boxed string's characters is not modelled). -/
def spreadToProps : JVal → JProps
  | .obj fields => fields
  | .arr xs ps => (indexProps 0 xs).append ps
  | _ => .nil

/-- `setValueRecursively` from `setValueByPath`, over the remaining suffix
of the parsed parts (the source indexes into the full list). -/
def setValueRecursively : JVal → List String → JVal → JVal
  | _, [], value => value
  | obj, part :: rest, value =>
    if isArrayWildcard part then
      match obj with
      | .arr xs _ =>
        if rest = [] then .arr (xs.mapF (fun _ => deepClone value)) .nil
        else .arr (xs.mapF (fun item => setValueRecursively item rest value)) .nil
      | other => other
    else if isObjectWildcard part then
      match obj with
      | .obj fields =>
        if rest = [] then .obj (fields.mapValsF (fun _ => deepClone value))
        else .obj (fields.mapValsF (fun v => setValueRecursively v rest value))
      | .null => .obj .nil
      | other => other
    else if isArrayIndex part then
      match obj with
      | .arr xs _ =>
        (match getArrayIndex part with
         | .nat n =>
           let padded := xs.padTo n
           if rest = [] then .arr (padded.set n value) .nil
           else
             let elem := padded.get n
             let elem := if elem = .undef then containerFor (rest.headD "") else elem
             .arr (padded.set n (setValueRecursively elem rest value)) .nil
         | .key k =>
           if rest = [] then .arr xs (JProps.cons k value .nil)
           else
             .arr xs (JProps.cons k
               (setValueRecursively (containerFor (rest.headD "")) rest value) .nil))
      | _ =>
        (match getArrayIndex part with
         | .nat n =>
           let padded := JList.nil.padTo n
           if rest = [] then .arr (padded.set n value) .nil
           else
             .arr (padded.set n
               (setValueRecursively (containerFor (rest.headD "")) rest value)) .nil
         | .key k =>
           if rest = [] then .arr .nil (JProps.cons k value .nil)
           else
             .arr .nil (JProps.cons k
               (setValueRecursively (containerFor (rest.headD "")) rest value) .nil))
    else
      let newFields :=
        match obj with
        | .obj fields => fields
        | .arr xs ps => spreadToProps (.arr xs ps)
        | _ => JProps.nil
      if rest = [] then .obj (newFields.aset part value)
      else
        let cur := (newFields.aget part).getD .undef
        let cur := if cur = .undef then containerFor (rest.headD "") else cur
        .obj (newFields.aset part (setValueRecursively cur rest value))

/-- `setValueByPath` from src/utils.ts. -/
def setValueByPath (obj : JVal) (path : String) (value : JVal) : JVal :=
  if truthy obj = false || path = "" then obj
  else
    let result := deepClone obj
    if hasOwnProperty obj path then jsSetProp result path value
    else
      match parsePath path with
      | [] => result
      | parts => setValueRecursively result parts value

/-! ## The pipeline orchestrator (`Bricksmith` from src/bricksmith.ts) -/

/-- The transform context passed to a step's callbacks. -/
structure TransformContext where
  data : JVal
  source : String
  sourceValue : JVal
  target : String
  targetValue : JVal

/-- A pipeline step (`BricksmithPlugin` from src/types.ts) after `brick`
has defaulted a missing target to the source.  The transform and the hooks
are caller-supplied synchronous functions; a thrown exception is modelled
by `Except.error`. -/
structure Plugin where
  source : String
  target : String
  transform : TransformContext → Except Unit JVal
  beforeHook : Option (TransformContext → Except Unit TransformContext) := none
  afterHook : Option (TransformContext → JVal → Except Unit JVal) := none
  keepSource : Bool := false

/-- The callback portion of `applyPlugin`: build the context, run the
before hook, the transform and the after hook; an error anywhere is the
exception the surrounding try/catch intercepts. -/
def runCallbacks (data : JVal) (p : Plugin) : Except Unit JVal :=
  let sourceValue := getValueByPath data p.source
  let targetValue := getValueByPath data p.target
  let ctx : TransformContext :=
    ⟨data, p.source, sourceValue, p.target, targetValue⟩
  do
    let ctx ← match p.beforeHook with
      | none => pure ctx
      | some h => h ctx
    let tv ← p.transform ctx
    match p.afterHook with
    | none => pure tv
    | some h => h ctx tv

/-- The removal step of `applyPlugin` once the parent walk has finished (or
broken off): against an array parent an in-range index segment is spliced
out; against a non-array object parent the segment's key is deleted
(whatever its shape); anything else does nothing. -/
def removeHere (parent : JVal) (lastPart : String) : JVal :=
  match parent with
  | .arr xs ps =>
    if isArrayIndex lastPart then
      match getArrayIndex lastPart with
      | .nat n => if n + 1 ≤ xs.length then .arr (xs.eraseIdx n) ps else .arr xs ps
      | .key _ => .arr xs ps
    else .arr xs ps
  | .obj fields => .obj (fields.adelete lastPart)
  | other => other

/-- The parent walk of the removal code.  A failing segment `break`s out of
the loop and the removal then runs against whatever value was reached; the
in-place mutation of the source is rendered as a write-back along the walk,
guarded by an equality test so that an unchanged child leaves the document
untouched (`updatedData` is a fresh JSON-parse result, so it has no internal
aliasing and the write-back is equivalent to the in-place splice/delete). -/
def removeAt : JVal → List String → String → JVal
  | parent, [], lastPart => removeHere parent lastPart
  | parent, part :: rest, lastPart =>
    if isArrayIndex part then
      match parent with
      | .arr xs ps =>
        (match getArrayIndex part with
         | .nat n =>
           if n + 1 ≤ xs.length then
             let child := xs.get n
             let child2 := removeAt child rest lastPart
             if child2 = child then .arr xs ps else .arr (xs.set n child2) ps
           else removeHere (.arr xs ps) lastPart
         | .key _ => removeHere (.arr xs ps) lastPart)
      | other => removeHere other lastPart
    else
      match parent with
      | .obj fields =>
        let child := jsGetProp (.obj fields) part
        let child2 := removeAt child rest lastPart
        if child2 = child then .obj fields else .obj (fields.aset part child2)
      | .arr xs ps =>
        let child := jsGetProp (.arr xs ps) part
        let child2 := removeAt child rest lastPart
        if child2 = child then .arr xs ps
        else
          (match decIndex? part with
           | some n => if n + 1 ≤ xs.length then .arr (xs.set n child2) ps else .arr xs ps
           | none => if part = "length" then .arr xs ps else .arr xs (ps.aset part child2))
      | other => removeHere other lastPart

/-- The source-removal block of `applyPlugin`: parse the source path, walk
to the parent of the last segment and remove it there. -/
def removeSource (updatedData : JVal) (sourcePath : String) : JVal :=
  match parsePath sourcePath with
  | [] => updatedData
  | part :: rest =>
    removeAt updatedData ((part :: rest).dropLast)
      ((part :: rest).getLast (List.cons_ne_nil part rest))

/-- `Object.keys(v)` with each key's value: an object's own fields, an
array's index keys followed by its non-index properties, nothing for a
primitive. -/
def objKeysPairs : JVal → JProps
  | .obj fields => fields
  | .arr xs ps => (indexProps 0 xs).append ps
  | _ => .nil

/-- Repeated `v[k] = value` assignments (the copy loop of `applyPlugin`). -/
def jsAssignAll : JVal → JProps → JVal
  | base, .nil => base
  | base, .cons k v rest => jsAssignAll (jsSetProp base k v) rest

/-- The final block of `applyPlugin`: every own key of `data` is deleted and
every own key of `updatedData` is copied over, in place.  For an object
document this reproduces `updatedData`'s keys in their order; for an array
document the index keys are deleted (leaving holes, modelled as `undefined`,
the length unchanged) before the copy; a primitive document cannot be
written through and stays as it is. -/
def copyBack (data upd : JVal) : JVal :=
  match data with
  | .obj _ => .obj (objKeysPairs upd)
  | .arr xs _ => jsAssignAll (.arr (JList.replicate xs.length .undef) .nil) (objKeysPairs upd)
  | other => other

/-- The per-step result record (`PluginResult` from src/types.ts). -/
structure PluginResult where
  source : String
  target : String
  result : JVal
  applied : Bool

/-- `applyPlugin` from src/bricksmith.ts.  The source mutates `data` in
place through `copyBack`; the model returns the new document together with
the step's result record.  The try/catch around the whole body only ever
intercepts exceptions of the caller-supplied callbacks (every other
operation in the body is total), so it is rendered by the match on
`runCallbacks`. -/
def applyPlugin (p : Plugin) (data : JVal) : JVal × PluginResult :=
  let sourceValue := getValueByPath data p.source
  if sourceValue = .undef then
    (data, ⟨p.source, p.target, .null, false⟩)
  else
    match runCallbacks data p with
    | .error _ => (data, ⟨p.source, p.target, .null, false⟩)
    | .ok tv =>
      let updatedData := jsonRoundTrip data
      let updatedData := setValueByPath updatedData p.target tv
      let updatedData :=
        if p.source ≠ p.target ∧ p.keepSource = false then
          removeSource updatedData p.source
        else updatedData
      (copyBack data updatedData, ⟨p.source, p.target, tv, true⟩)

/-- The plugin loop of `build`: each step's in-place update is threaded to
the next step. -/
def buildLoop : JVal → List Plugin → JVal
  | d, [] => d
  | d, p :: ps => buildLoop (applyPlugin p d).1 ps

/-- Modelled from the spec: the blueprint-façade step application.  The file
implementing the `Blueprint`/`Brick` engine (the typed Source/Target calling
convention whose `Brick` record carries the `fallback` field declared in
the repository's type definitions and exercised by its tests) is not among
the sources; per the specification: "Resolve `sourceValue` via the Reader.
If NOT_FOUND, use the step's fallback if supplied, else skip the step (no
target write occurs)." -/
def applyBrickModelled (data : JVal) (source target : String)
    (fallback : Option JVal) (transform : JVal → JVal) : JVal :=
  match getValueByPath data source, fallback with
  | .undef, none => data
  | .undef, some f => setValueByPath data target (transform f)
  | v, _ => setValueByPath data target (transform v)

/-! ## Derived predicates used by the verification -/

/-- A character that the path scanner treats as an ordinary literal
character (and that cannot begin an escape or a wildcard). -/
def simpleChar (c : Char) : Bool :=
  !(c = '.' || c = '[' || c = ']' || c = '\\' || c = '*')

/-- A nonempty path made only of ordinary literal characters: it parses to
itself as a single literal segment. -/
def isSimpleKey (s : String) : Bool :=
  decide (s ≠ "") && s.data.all simpleChar

/-- No segment of the list is a wildcard. -/
def wildcardFree (parts : List String) : Bool :=
  parts.all (fun s => !isArrayWildcard s && !isObjectWildcard s)

def isContainer : JVal → Bool
  | .arr _ _ => true
  | .obj _ => true
  | _ => false

mutual

/-- No array anywhere in the value carries non-index properties (such
values are fixed points of `deepClone`). -/
def arrPropFree : JVal → Bool
  | .arr xs .nil => arrPropFreeList xs
  | .arr _ (.cons _ _ _) => false
  | .obj fields => arrPropFreeProps fields
  | _ => true

def arrPropFreeList : JList → Bool
  | .nil => true
  | .cons x xs => arrPropFree x && arrPropFreeList xs

def arrPropFreeProps : JProps → Bool
  | .nil => true
  | .cons _ v rest => arrPropFree v && arrPropFreeProps rest

end

mutual

/-- No `undefined` occurs anywhere inside the value: no object field holds
it, no array element or array property holds it, and the value itself is
not `undefined`. -/
def undefFree : JVal → Bool
  | .undef => false
  | .arr xs ps => undefFreeList xs && undefFreeProps ps
  | .obj fields => undefFreeProps fields
  | _ => true

def undefFreeList : JList → Bool
  | .nil => true
  | .cons x xs => undefFree x && undefFreeList xs

def undefFreeProps : JProps → Bool
  | .nil => true
  | .cons _ v rest => undefFree v && undefFreeProps rest

end

/-- `OneRemoval v v2` says `v2` is `v` with at most one removal applied
somewhere inside it: either nothing, or one key deleted from one nested
object, or one element spliced out of one nested array.  This is the frame
property of the source-removal code: it never writes, reorders or creates
values anywhere. -/
inductive OneRemoval : JVal → JVal → Prop where
  | same (v : JVal) : OneRemoval v v
  | delKey (fields : JProps) (k : String) :
      OneRemoval (.obj fields) (.obj (fields.adelete k))
  | splice (xs : JList) (ps : JProps) (n : Nat) (h : n + 1 ≤ xs.length) :
      OneRemoval (.arr xs ps) (.arr (xs.eraseIdx n) ps)
  | withinObj (fields : JProps) (k : String) (v v2 : JVal)
      (hget : fields.aget k = some v) (hrec : OneRemoval v v2) :
      OneRemoval (.obj fields) (.obj (fields.aset k v2))
  | withinArr (xs : JList) (ps : JProps) (n : Nat) (h : n + 1 ≤ xs.length)
      (v2 : JVal) (hrec : OneRemoval (xs.get n) v2) :
      OneRemoval (.arr xs ps) (.arr (xs.set n v2) ps)
  | withinArrProp (xs : JList) (ps : JProps) (k : String) (v v2 : JVal)
      (hget : ps.aget k = some v) (hrec : OneRemoval v v2) :
      OneRemoval (.arr xs ps) (.arr xs (ps.aset k v2))

/-! ## Concrete fixtures used by witnesses and counterexamples -/

/-- The nested document of the specification's wildcard fan-out scenario. -/
def docNestedPosts : JVal :=
  jobj [("user", jobj [("posts", jarr
    [ jobj [("comments", jarr [jobj [("id", .num 101)], jobj [("id", .num 102)]])],
      jobj [("comments", jarr [jobj [("id", .num 201)]])] ])])]

/-- A step whose transform always throws. -/
def pluginThrow : Plugin :=
  { source := "a", target := "b", transform := fun _ => .error () }

/-- A step that moves key `a` to key `b` unchanged. -/
def pluginMoveAB : Plugin :=
  { source := "a", target := "b", transform := fun c => .ok c.sourceValue }

/-- A step that copies key `a` to key `c`, keeping the source. -/
def pluginKeepAC : Plugin :=
  { source := "a", target := "c", transform := fun c => .ok c.sourceValue,
    keepSource := true }

/-! ## Basic lemmas about the list and property operations -/

theorem JList.length_mapF (f : JVal → JVal) : ∀ (xs : JList),
    (xs.mapF f).length = xs.length
  | .nil => rfl
  | .cons x xs => by
    simp [JList.mapF, JList.length, JList.length_mapF f xs]

theorem push_data (s : String) (c : Char) : (s.push c).data = s.data ++ [c] := rfl

theorem push_ne_empty (s : String) (c : Char) : s.push c ≠ "" := by
  intro h
  have := congrArg String.data h
  simp [push_data] at this

theorem eq_of_data_eq (s t : String) (h : s.data = t.data) : s = t := by
  cases s; cases t
  simp only at h
  rw [h]

theorem hasEscSeq_cons (c : Char) (rest : List Char)
    (h0 : ∀ rest2 : List Char, c = '\\' → rest = '.' :: rest2 → False) :
    hasEscSeq (c :: rest) = hasEscSeq rest := by
  rw [hasEscSeq.eq_def]
  split
  · rename_i heq
    obtain ⟨hc, hr⟩ := List.cons.inj heq
    exact ((h0 _ hc hr).elim)
  · rename_i heq
    obtain ⟨_, hr⟩ := List.cons.inj heq
    rw [hr]
  · rename_i heq
    simp at heq

theorem scanParts_cons (c : Char) (rest : List Char) (cur : String) (inB : Bool)
    (h0 : ∀ rest2 : List Char, c = '\\' → rest = '.' :: rest2 → False) :
    scanParts (c :: rest) cur inB =
      if c = '[' && !inB then
        (if cur = "" then [] else [cur]) ++ scanParts rest (String.push "" '[') true
      else if c = ']' && inB then
        (cur.push ']') :: scanParts rest "" false
      else if c = '.' && !inB then
        (if cur = "" then [] else [cur]) ++ scanParts rest "" false
      else scanParts rest (cur.push c) inB := by
  rw [scanParts.eq_def]
  split
  · rename_i heq
    simp at heq
  · rename_i rest2 heq
    obtain ⟨hc, hr⟩ := List.cons.inj heq
    exact (h0 rest2 hc hr).elim
  · rename_i heq
    obtain ⟨hc, hr⟩ := List.cons.inj heq
    subst hc; subst hr
    rfl

theorem hasEscSeq_of_no_bs (cs : List Char) (h : ∀ c ∈ cs, c ≠ '\\') :
    hasEscSeq cs = false := by
  induction cs with
  | nil => rfl
  | cons c rest ih =>
    rw [hasEscSeq_cons c rest (fun r2 hc _ => h c (by simp) hc)]
    exact ih (fun c2 hc2 => h c2 (by simp [hc2]))

theorem simpleChar_spec (c : Char) (h : simpleChar c = true) :
    c ≠ '.' ∧ c ≠ '[' ∧ c ≠ ']' ∧ c ≠ '\\' ∧ c ≠ '*' := by
  simp [simpleChar] at h
  exact ⟨h.1.1.1.1, h.1.1.1.2, h.1.1.2, h.1.2, h.2⟩

theorem scanParts_simple (cs : List Char) : ∀ (cur : String),
    (∀ c ∈ cs, simpleChar c = true) → cur ≠ "" →
    scanParts cs cur false = [String.mk (cur.data ++ cs)] := by
  induction cs with
  | nil =>
    intro cur h hcur
    simp [scanParts, hcur]
  | cons c rest ih =>
    intro cur h hcur
    obtain ⟨h1, h2, h3, h4, h5⟩ := simpleChar_spec c (h c (by simp))
    rw [scanParts_cons c rest cur false (fun r2 hc _ => h4 hc)]
    have hc1 : (decide (c = '[') && !false) = false := by simp [h2]
    have hc2 : (decide (c = ']') && false) = false := by simp
    have hc3 : (decide (c = '.') && !false) = false := by simp [h1]
    simp only [hc1, hc2, hc3, Bool.false_eq_true, if_false]
    rw [ih (cur.push c) (fun c2 hc2 => h c2 (by simp [hc2])) (push_ne_empty cur c)]
    have hdata : (cur.push c).data ++ rest = cur.data ++ c :: rest := by
      simp [push_data]
    rw [hdata]

theorem parsePath_simple (s : String) (h : isSimpleKey s = true) :
    parsePath s = [s] := by
  have hne : s ≠ "" := by
    simp [isSimpleKey] at h
    exact h.1
  have hall : ∀ c ∈ s.data, simpleChar c = true := by
    simp [isSimpleKey, List.all_eq_true] at h
    exact h.2
  have hnb : ∀ c ∈ s.data, c ≠ '\\' := fun c hc =>
    (simpleChar_spec c (hall c hc)).2.2.2.1
  unfold parsePath
  rw [if_neg hne]
  have hesc : isEscapedPath s = false := hasEscSeq_of_no_bs s.data hnb
  rw [hesc]
  rw [if_neg (by simp)]
  rcases hd : s.data with _ | ⟨c, rest⟩
  · exact absurd (eq_of_data_eq s "" (by simp [hd])) hne
  · obtain ⟨h1, h2, h3, h4, h5⟩ := simpleChar_spec c (hall c (by simp [hd]))
    rw [scanParts_cons c rest "" false (fun r2 hc _ => h4 hc)]
    have hc1 : (decide (c = '[') && !false) = false := by simp [h2]
    have hc2 : (decide (c = ']') && false) = false := by simp
    have hc3 : (decide (c = '.') && !false) = false := by simp [h1]
    simp only [hc1, hc2, hc3, Bool.false_eq_true, if_false]
    rw [scanParts_simple rest ("".push c)
      (fun c2 hc2 => hall c2 (by simp [hd, hc2])) (push_ne_empty "" c)]
    have hdata : ("".push c).data ++ rest = s.data := by
      simp [push_data, hd]
    rw [hdata]

theorem charOfNat_digit_isDigit (m : Nat) (hm : m < 10) :
    (Char.ofNat (48 + m)).isDigit = true := by
  interval_cases m <;> decide

theorem charOfNat_digit_toNat (m : Nat) (hm : m < 10) :
    (Char.ofNat (48 + m)).toNat = 48 + m := by
  interval_cases m <;> decide

theorem charOfNat_digit_ne_zero (m : Nat) (hm1 : 1 ≤ m) (hm : m < 10) :
    Char.ofNat (48 + m) ≠ '0' := by
  interval_cases m <;> decide

theorem natDigitsGo_digits : ∀ (f n : Nat), ∀ c ∈ natDigitsGo f n, c.isDigit = true
  | 0, _ => by simp [natDigitsGo]
  | f + 1, n => by
    unfold natDigitsGo
    split
    · rename_i hn
      intro c hc
      simp at hc
      subst hc
      exact charOfNat_digit_isDigit n hn
    · intro c hc
      rcases List.mem_append.mp hc with h | h
      · exact natDigitsGo_digits f (n / 10) c h
      · simp at h
        subst h
        exact charOfNat_digit_isDigit (n % 10) (Nat.mod_lt n (by omega))

theorem natDigitsGo_ne_nil : ∀ (f n : Nat), n < f → natDigitsGo f n ≠ []
  | 0, n, h => by omega
  | f + 1, n, h => by
    unfold natDigitsGo
    split <;> simp

theorem natOfDigits_append_digit (a : List Char) (c : Char) :
    natOfDigits (a ++ [c]) = 10 * natOfDigits a + (c.toNat - '0'.toNat) := by
  simp [natOfDigits, List.foldl_append]
  omega

theorem natOfDigits_natDigitsGo : ∀ (f n : Nat), n < f →
    natOfDigits (natDigitsGo f n) = n
  | 0, n, h => by omega
  | f + 1, n, h => by
    unfold natDigitsGo
    split
    · rename_i hn
      simp [natOfDigits]
      rw [charOfNat_digit_toNat n hn]
      simp [Char.toNat]
    · rename_i hn
      push_neg at hn
      rw [natOfDigits_append_digit]
      have hdiv : n / 10 < f := by
        have h1 : n / 10 < n := Nat.div_lt_self (by omega) (by omega)
        omega
      rw [natOfDigits_natDigitsGo f (n / 10) hdiv]
      rw [charOfNat_digit_toNat (n % 10) (Nat.mod_lt n (by omega))]
      have : '0'.toNat = 48 := rfl
      omega

theorem natDigitsGo_head_ne_zero : ∀ (f n : Nat), n < f → 1 ≤ n →
    (natDigitsGo f n).head? ≠ some '0'
  | 0, n, h, _ => by omega
  | f + 1, n, h, h1 => by
    unfold natDigitsGo
    split
    · rename_i hn
      simp
      exact charOfNat_digit_ne_zero n h1 hn
    · rename_i hn
      push_neg at hn
      have hdiv : n / 10 < f := by
        have := Nat.div_lt_self (show 0 < n by omega) (show 1 < 10 by omega)
        omega
      have h1' : 1 ≤ n / 10 := Nat.one_le_div_iff (by omega) |>.mpr (by omega)
      have hne := natDigitsGo_ne_nil f (n / 10) hdiv
      rcases hgo : natDigitsGo f (n / 10) with _ | ⟨d, ds⟩
      · exact absurd hgo hne
      · have := natDigitsGo_head_ne_zero f (n / 10) hdiv h1'
        rw [hgo] at this
        simp at this
        simp [hgo, this]

theorem decIndex?_natToString (n : Nat) : decIndex? (natToString n) = some n := by
  have hne := natDigitsGo_ne_nil (n + 1) n (by omega)
  have hdig := natDigitsGo_digits (n + 1) n
  have hval := natOfDigits_natDigitsGo (n + 1) n (by omega)
  rcases hgo : natDigitsGo (n + 1) n with _ | ⟨c, rest⟩
  · exact absurd hgo hne
  · have hdata : (natToString n).data = c :: rest := by
      simp [natToString, hgo]
    have hcond : (c :: rest).all Char.isDigit ∧ (c ≠ '0' ∨ rest = []) := by
      constructor
      · rw [List.all_eq_true]
        intro x hx
        exact hdig x (by rw [hgo]; exact hx)
      · by_cases hn0 : n = 0
        · subst hn0
          have : natDigitsGo 1 0 = ['0'] := by decide
          rw [this] at hgo
          obtain ⟨hc, hrest⟩ := List.cons.inj hgo.symm
          right; exact hrest
        · left
          have := natDigitsGo_head_ne_zero (n + 1) n (by omega) (by omega)
          rw [hgo] at this
          simpa using this
    simp only [decIndex?, hdata]
    rw [if_pos hcond]
    rw [← hgo, hval]

theorem isSimpleKey_of_digits (p : String)
    (h : ∀ c ∈ p.data, c.isDigit = true) (hne : p.data ≠ []) :
    isSimpleKey p = true := by
  have hne2 : p ≠ "" := fun hh => hne (by simp [hh])
  have hsc : ∀ c ∈ p.data, simpleChar c = true := by
    intro c hc
    have hd := h c hc
    have h1 : c ≠ '.' := fun hh => by subst hh; exact absurd hd (by decide)
    have h2 : c ≠ '[' := fun hh => by subst hh; exact absurd hd (by decide)
    have h3 : c ≠ ']' := fun hh => by subst hh; exact absurd hd (by decide)
    have h4 : c ≠ '\\' := fun hh => by subst hh; exact absurd hd (by decide)
    have h5 : c ≠ '*' := fun hh => by subst hh; exact absurd hd (by decide)
    simp [simpleChar, h1, h2, h3, h4, h5]
  unfold isSimpleKey
  rw [List.all_eq_true.mpr hsc]
  simp [hne2]

theorem decIndex?_some_digits (p : String) (n : Nat)
    (h : decIndex? p = some n) :
    (∀ c ∈ p.data, c.isDigit = true) ∧ p.data ≠ [] := by
  unfold decIndex? at h
  rcases hd : p.data with _ | ⟨c, rest⟩
  · rw [hd] at h; simp at h
  · rw [hd] at h
    simp only [] at h
    split at h
    · rename_i hcond
      refine ⟨?_, by simp [hd]⟩
      intro x hx
      exact (List.all_eq_true.mp hcond.1) x hx
    · simp at h

theorem parsePath_of_decIndex (p : String) (n : Nat)
    (h : decIndex? p = some n) : parsePath p = [p] := by
  obtain ⟨hdig, hne⟩ := decIndex?_some_digits p n h
  exact parsePath_simple p (isSimpleKey_of_digits p hdig hne)

theorem parsePath_natToString (n : Nat) :
    parsePath (natToString n) = [natToString n] :=
  parsePath_of_decIndex (natToString n) n (decIndex?_natToString n)

theorem wildcardFree_cons (part : String) (rest : List String) :
    wildcardFree (part :: rest) = true ↔
      isArrayWildcard part = false ∧ isObjectWildcard part = false ∧
      wildcardFree rest = true := by
  simp [wildcardFree]
  tauto

/-! ### Single-step unfolding equations for the writer and the read loop -/

theorem walkParts_obj_regular (rnt : JVal → String → JVal) (f : JProps)
    (part : String) (rest : List String)
    (haw : isArrayWildcard part = false) (how : isObjectWildcard part = false)
    (hai : isArrayIndex part = false) :
    walkParts rnt (.obj f) (part :: rest) =
      walkParts rnt (jsGetProp (.obj f) part) rest := by
  simp only [walkParts, haw, how, hai, Bool.false_eq_true, if_false, if_true]
  rfl

theorem getVF_succ (f : Nat) (obj : JVal) (path : String) :
    getVF (f + 1) obj path =
      if truthy obj = false || path = "" then .undef
      else if hasOwnProperty obj path then jsGetProp obj path
      else walkParts (getVF f) obj (parsePath path) := rfl

mutual

theorem deepClone_id : ∀ (v : JVal), arrPropFree v = true → deepClone v = v
  | .undef, _ => rfl
  | .null, _ => rfl
  | .bool _, _ => rfl
  | .num _, _ => rfl
  | .str _, _ => rfl
  | .arr xs .nil, h => by
    have hxs : arrPropFreeList xs = true := by simpa [arrPropFree] using h
    simp [deepClone, deepCloneList_id xs hxs]
  | .arr xs (.cons k w ps), h => by
    simp [arrPropFree] at h
  | .obj fields, h => by
    have hf : arrPropFreeProps fields = true := by simpa [arrPropFree] using h
    simp [deepClone, deepCloneProps_id fields hf]

theorem deepCloneList_id : ∀ (xs : JList), arrPropFreeList xs = true →
    deepCloneList xs = xs
  | .nil, _ => rfl
  | .cons x xs, h => by
    have h2 : arrPropFree x = true ∧ arrPropFreeList xs = true := by
      simpa [arrPropFreeList] using h
    simp [deepCloneList, deepClone_id x h2.1, deepCloneList_id xs h2.2]

theorem deepCloneProps_id : ∀ (ps : JProps), arrPropFreeProps ps = true →
    deepCloneProps ps = ps
  | .nil, _ => rfl
  | .cons k v rest, h => by
    have h2 : arrPropFree v = true ∧ arrPropFreeProps rest = true := by
      simpa [arrPropFreeProps] using h
    simp [deepCloneProps, deepClone_id v h2.1, deepCloneProps_id rest h2.2]

end

theorem jsonRoundTripList_cons (x : JVal) (xs : JList) :
    jsonRoundTripList (.cons x xs) =
      .cons (if x = .undef then .null else jsonRoundTrip x)
        (jsonRoundTripList xs) := by
  cases x <;> rfl

theorem jsonRoundTripProps_cons (k : String) (v : JVal) (rest : JProps) :
    jsonRoundTripProps (.cons k v rest) =
      (if v = .undef then jsonRoundTripProps rest
       else .cons k (jsonRoundTrip v) (jsonRoundTripProps rest)) := by
  cases v <;> rfl

mutual

theorem arrPropFree_jsonRoundTrip : ∀ (v : JVal),
    arrPropFree (jsonRoundTrip v) = true
  | .undef => rfl
  | .null => rfl
  | .bool _ => rfl
  | .num _ => rfl
  | .str _ => rfl
  | .arr xs _ => by
    simp [jsonRoundTrip, arrPropFree, arrPropFree_jsonRoundTripList xs]
  | .obj fields => by
    simp [jsonRoundTrip, arrPropFree, arrPropFree_jsonRoundTripProps fields]

theorem arrPropFree_jsonRoundTripList : ∀ (xs : JList),
    arrPropFreeList (jsonRoundTripList xs) = true
  | .nil => rfl
  | .cons x xs => by
    rw [jsonRoundTripList_cons]
    by_cases hx : x = .undef
    · simp [hx, arrPropFreeList, arrPropFree, arrPropFree_jsonRoundTripList xs]
    · simp [hx, arrPropFreeList, arrPropFree_jsonRoundTrip x,
        arrPropFree_jsonRoundTripList xs]

theorem arrPropFree_jsonRoundTripProps : ∀ (ps : JProps),
    arrPropFreeProps (jsonRoundTripProps ps) = true
  | .nil => rfl
  | .cons k v rest => by
    rw [jsonRoundTripProps_cons]
    by_cases hv : v = .undef
    · simp [hv, arrPropFree_jsonRoundTripProps rest]
    · simp [hv, arrPropFreeProps, arrPropFree_jsonRoundTrip v,
        arrPropFree_jsonRoundTripProps rest]

end

mutual

theorem undefFree_jsonRoundTrip : ∀ (v : JVal), v ≠ .undef →
    undefFree (jsonRoundTrip v) = true
  | .undef, h => absurd rfl h
  | .null, _ => rfl
  | .bool _, _ => rfl
  | .num _, _ => rfl
  | .str _, _ => rfl
  | .arr xs _, _ => by
    simp [jsonRoundTrip, undefFree, undefFreeProps,
      undefFree_jsonRoundTripList xs]
  | .obj fields, _ => by
    simp [jsonRoundTrip, undefFree, undefFree_jsonRoundTripProps fields]

theorem undefFree_jsonRoundTripList : ∀ (xs : JList),
    undefFreeList (jsonRoundTripList xs) = true
  | .nil => rfl
  | .cons x xs => by
    rw [jsonRoundTripList_cons]
    by_cases hx : x = .undef
    · simp [hx, undefFreeList, undefFree, undefFree_jsonRoundTripList xs]
    · simp [hx, undefFreeList, undefFree_jsonRoundTrip x hx,
        undefFree_jsonRoundTripList xs]

theorem undefFree_jsonRoundTripProps : ∀ (ps : JProps),
    undefFreeProps (jsonRoundTripProps ps) = true
  | .nil => rfl
  | .cons k v rest => by
    rw [jsonRoundTripProps_cons]
    by_cases hv : v = .undef
    · simp [hv, undefFree_jsonRoundTripProps rest]
    · simp [hv, undefFreeProps, undefFree_jsonRoundTrip v hv,
        undefFree_jsonRoundTripProps rest]

end

theorem applyPlugin_skip (p : Plugin) (d : JVal)
    (hsv : getValueByPath d p.source = .undef) :
    applyPlugin p d = (d, ⟨p.source, p.target, .null, false⟩) := by
  unfold applyPlugin
  rw [if_pos hsv]

theorem applyPlugin_error (p : Plugin) (d : JVal)
    (hcb : runCallbacks d p = .error ()) :
    applyPlugin p d = (d, ⟨p.source, p.target, .null, false⟩) := by
  unfold applyPlugin
  by_cases hsv : getValueByPath d p.source = .undef
  · rw [if_pos hsv]
  · rw [if_neg hsv]
    rw [hcb]

theorem applyPlugin_ok (p : Plugin) (d : JVal) (tv : JVal)
    (hsv : ¬ getValueByPath d p.source = .undef)
    (hcb : runCallbacks d p = .ok tv) :
    applyPlugin p d = (copyBack d
      (if p.source ≠ p.target ∧ p.keepSource = false then
        removeSource (setValueByPath (jsonRoundTrip d) p.target tv) p.source
       else setValueByPath (jsonRoundTrip d) p.target tv),
      ⟨p.source, p.target, tv, true⟩) := by
  unfold applyPlugin
  rw [if_neg hsv]
  rw [hcb]

theorem removeAt_noncontainer : ∀ (parts : List String) (v : JVal)
    (last : String), isContainer v = false → removeAt v parts last = v
  | [], v, last, h => by
    cases v <;> simp [isContainer] at h <;> rfl
  | part :: rest, v, last, h => by
    unfold removeAt
    by_cases hai : isArrayIndex part = true
    · rw [if_pos hai]
      cases v <;> simp [isContainer] at h <;> rfl
    · rw [if_neg hai]
      cases v <;> simp [isContainer] at h <;> rfl

theorem removeHere_arr (xs : JList) (ps : JProps) (last : String) :
    removeHere (.arr xs ps) last =
      (if isArrayIndex last then
        (match getArrayIndex last with
         | .nat n => if n + 1 ≤ xs.length then .arr (xs.eraseIdx n) ps
                     else .arr xs ps
         | .key _ => .arr xs ps)
       else .arr xs ps) := rfl

theorem removeHere_obj (f : JProps) (last : String) :
    removeHere (.obj f) last = .obj (f.adelete last) := rfl

theorem removeAt_cons_arr (xs : JList) (ps : JProps) (part : String)
    (rest : List String) (last : String) :
    removeAt (.arr xs ps) (part :: rest) last =
      (if isArrayIndex part then
        (match getArrayIndex part with
         | .nat n =>
           if n + 1 ≤ xs.length then
             (if removeAt (xs.get n) rest last = xs.get n then .arr xs ps
              else .arr (xs.set n (removeAt (xs.get n) rest last)) ps)
           else removeHere (.arr xs ps) last
         | .key _ => removeHere (.arr xs ps) last)
       else
        (if removeAt (jsGetProp (.arr xs ps) part) rest last
            = jsGetProp (.arr xs ps) part
         then .arr xs ps
         else
           (match decIndex? part with
            | some n => if n + 1 ≤ xs.length
                then .arr (xs.set n
                  (removeAt (jsGetProp (.arr xs ps) part) rest last)) ps
                else .arr xs ps
            | none => if part = "length" then .arr xs ps
                else .arr xs (ps.aset part
                  (removeAt (jsGetProp (.arr xs ps) part) rest last))))) := rfl

theorem removeAt_cons_obj (f : JProps) (part : String)
    (rest : List String) (last : String) :
    removeAt (.obj f) (part :: rest) last =
      (if isArrayIndex part then removeHere (.obj f) last
       else
        (if removeAt (jsGetProp (.obj f) part) rest last
            = jsGetProp (.obj f) part
         then .obj f
         else .obj (f.aset part
           (removeAt (jsGetProp (.obj f) part) rest last)))) := rfl

theorem oneRemoval_removeHere (v : JVal) (last : String) :
    OneRemoval v (removeHere v last) := by
  cases v with
  | arr xs ps =>
    rw [removeHere_arr]
    by_cases hai : isArrayIndex last = true
    · rw [if_pos hai]
      rcases getArrayIndex last with n | k
      · show OneRemoval _ (if n + 1 ≤ xs.length then JVal.arr (xs.eraseIdx n) ps
          else JVal.arr xs ps)
        by_cases hn : n + 1 ≤ xs.length
        · rw [if_pos hn]
          exact OneRemoval.splice xs ps n hn
        · rw [if_neg hn]
          exact OneRemoval.same _
      · exact OneRemoval.same _
    · rw [if_neg hai]
      exact OneRemoval.same _
  | obj fields => exact OneRemoval.delKey fields last
  | undef => exact OneRemoval.same _
  | null => exact OneRemoval.same _
  | bool b => exact OneRemoval.same _
  | num n => exact OneRemoval.same _
  | str s => exact OneRemoval.same _

theorem oneRemoval_removeAt : ∀ (parts : List String) (v : JVal)
    (last : String), OneRemoval v (removeAt v parts last)
  | [], v, last => oneRemoval_removeHere v last
  | part :: rest, v, last => by
    by_cases hai : isArrayIndex part = true
    · cases v with
      | arr xs ps =>
        rw [removeAt_cons_arr xs ps part rest last, if_pos hai]
        rcases getArrayIndex part with n | k
        · show OneRemoval _ (if n + 1 ≤ xs.length then
            (if removeAt (xs.get n) rest last = xs.get n then JVal.arr xs ps
             else JVal.arr (xs.set n (removeAt (xs.get n) rest last)) ps)
            else removeHere (JVal.arr xs ps) last)
          by_cases hn : n + 1 ≤ xs.length
          · rw [if_pos hn]
            by_cases heq : removeAt (xs.get n) rest last = xs.get n
            · rw [if_pos heq]
              exact OneRemoval.same _
            · rw [if_neg heq]
              exact OneRemoval.withinArr xs ps n hn _
                (oneRemoval_removeAt rest (xs.get n) last)
          · rw [if_neg hn]
            exact oneRemoval_removeHere _ last
        · exact oneRemoval_removeHere _ last
      | obj fields =>
        rw [removeAt_cons_obj fields part rest last, if_pos hai]
        exact oneRemoval_removeHere _ last
      | undef =>
        rw [removeAt_noncontainer (part :: rest) JVal.undef last rfl]
        exact OneRemoval.same _
      | null =>
        rw [removeAt_noncontainer (part :: rest) JVal.null last rfl]
        exact OneRemoval.same _
      | bool b =>
        rw [removeAt_noncontainer (part :: rest) (JVal.bool b) last rfl]
        exact OneRemoval.same _
      | num n =>
        rw [removeAt_noncontainer (part :: rest) (JVal.num n) last rfl]
        exact OneRemoval.same _
      | str s =>
        rw [removeAt_noncontainer (part :: rest) (JVal.str s) last rfl]
        exact OneRemoval.same _
    · have hai2 : isArrayIndex part = false := by simpa using hai
      cases v with
      | obj fields =>
        rw [removeAt_cons_obj fields part rest last, if_neg (by simp [hai2])]
        by_cases heq : removeAt (jsGetProp (.obj fields) part) rest last
            = jsGetProp (.obj fields) part
        · rw [if_pos heq]
          exact OneRemoval.same _
        · rw [if_neg heq]
          rcases hag : fields.aget part with _ | w
          · exfalso
            apply heq
            have hch : jsGetProp (.obj fields) part = .undef := by
              simp [jsGetProp, hag]
            rw [hch]
            exact removeAt_noncontainer rest .undef last rfl
          · have hch : jsGetProp (.obj fields) part = w := by
              simp [jsGetProp, hag]
            rw [hch]
            exact OneRemoval.withinObj fields part w _ hag
              (by rw [← hch]; exact oneRemoval_removeAt rest _ last)
      | arr xs ps =>
        rw [removeAt_cons_arr xs ps part rest last, if_neg (by simp [hai2])]
        by_cases heq : removeAt (jsGetProp (.arr xs ps) part) rest last
            = jsGetProp (.arr xs ps) part
        · rw [if_pos heq]
          exact OneRemoval.same _
        · rw [if_neg heq]
          rcases hdi : decIndex? part with _ | n
          · by_cases hlp : part = "length"
            · exfalso
              apply heq
              subst hlp
              have hch : jsGetProp (.arr xs ps) "length" = .num xs.length := by
                simp [jsGetProp, hdi]
              rw [hch]
              exact removeAt_noncontainer rest _ last rfl
            · rw [if_neg hlp]
              rcases hag : ps.aget part with _ | w
              · exfalso
                apply heq
                have hch : jsGetProp (.arr xs ps) part = .undef := by
                  simp [jsGetProp, hdi, hlp, hag]
                rw [hch]
                exact removeAt_noncontainer rest .undef last rfl
              · have hch : jsGetProp (.arr xs ps) part = w := by
                  simp [jsGetProp, hdi, hlp, hag]
                rw [hch]
                exact OneRemoval.withinArrProp xs ps part w _ hag
                  (by rw [← hch]; exact oneRemoval_removeAt rest _ last)
          · show OneRemoval (JVal.arr xs ps)
                (if n + 1 ≤ xs.length
                  then JVal.arr (xs.set n (removeAt (jsGetProp (JVal.arr xs ps) part) rest last)) ps
                  else JVal.arr xs ps)
            by_cases hn : n + 1 ≤ xs.length
            · rw [if_pos hn]
              have hch : jsGetProp (.arr xs ps) part = xs.get n := by
                simp [jsGetProp, hdi, hn]
              rw [hch]
              exact OneRemoval.withinArr xs ps n hn _
                (by rw [← hch]; exact oneRemoval_removeAt rest _ last)
            · exfalso
              apply heq
              have hch : jsGetProp (.arr xs ps) part = .undef := by
                simp [jsGetProp, hdi, hn]
              rw [hch]
              exact removeAt_noncontainer rest .undef last rfl
      | undef =>
        rw [removeAt_noncontainer (part :: rest) JVal.undef last rfl]
        exact OneRemoval.same _
      | null =>
        rw [removeAt_noncontainer (part :: rest) JVal.null last rfl]
        exact OneRemoval.same _
      | bool b =>
        rw [removeAt_noncontainer (part :: rest) (JVal.bool b) last rfl]
        exact OneRemoval.same _
      | num n =>
        rw [removeAt_noncontainer (part :: rest) (JVal.num n) last rfl]
        exact OneRemoval.same _
      | str s =>
        rw [removeAt_noncontainer (part :: rest) (JVal.str s) last rfl]
        exact OneRemoval.same _

theorem oneRemoval_removeSource (doc : JVal) (path : String) :
    OneRemoval doc (removeSource doc path) := by
  unfold removeSource
  rcases parsePath path with _ | ⟨part, rest⟩
  · exact OneRemoval.same doc
  · exact oneRemoval_removeAt _ doc _

/-! ## Lemmas for the wildcard fan-out and escaped-path claims -/

theorem walkParts_cons (r : JVal → String → JVal) (cur : JVal) (part : String)
    (rest : List String) :
    walkParts r cur (part :: rest) =
      if cur = .undef || cur = .null then .undef
      else if isArrayWildcard part then
        match cur with
        | .arr xs ps =>
          if rest = [] then .arr xs ps
          else .arr (xs.mapF (fun item => r item (joinDots rest))) .nil
        | _ => .undef
      else if isObjectWildcard part then
        match cur with
        | .obj fields =>
          if rest = [] then .obj fields
          else .obj (fields.mapValsF (fun v => r v (joinDots rest)))
        | _ => .undef
      else if isArrayIndex part then
        match cur with
        | .arr xs ps => walkParts r (jsIdxGet xs ps (getArrayIndex part)) rest
        | _ => .undef
      else walkParts r (jsGetProp cur part) rest := rfl

theorem walkParts_arr_wildcard (r : JVal → String → JVal) (xs : JList)
    (ps : JProps) (part : String) (rest : List String)
    (hw : isArrayWildcard part = true) (hr : rest ≠ []) :
    walkParts r (.arr xs ps) (part :: rest)
      = .arr (xs.mapF (fun item => r item (joinDots rest))) .nil := by
  rw [walkParts_cons]
  rw [if_neg (by simp)]
  rw [hw]
  simp [hr]

theorem walkParts_obj_wildcard (r : JVal → String → JVal) (f : JProps)
    (part : String) (rest : List String)
    (haw : isArrayWildcard part = false) (how : isObjectWildcard part = true) :
    walkParts r (.obj f) (part :: rest)
      = if rest = [] then .obj f
        else .obj (f.mapValsF (fun v => r v (joinDots rest))) := by
  rw [walkParts_cons]
  rw [if_neg (by simp)]
  rw [haw, how]
  simp

theorem walkParts_reenter_free : ∀ (parts : List String)
    (r1 r2 : JVal → String → JVal) (v : JVal),
    wildcardFree parts = true → walkParts r1 v parts = walkParts r2 v parts
  | [], _, _, _, _ => rfl
  | part :: rest, r1, r2, v, hwf => by
    obtain ⟨haw, how, hrest⟩ := (wildcardFree_cons part rest).mp hwf
    rw [walkParts_cons r1 v part rest, walkParts_cons r2 v part rest]
    rw [haw, how]
    by_cases hun : (v = JVal.undef || v = JVal.null) = true
    · rw [if_pos hun, if_pos hun]
    · rw [if_neg hun, if_neg hun]
      simp only [Bool.false_eq_true, if_false]
      by_cases hai : isArrayIndex part = true
      · rw [hai]
        simp only [if_true]
        cases v with
        | arr xs ps => exact walkParts_reenter_free rest r1 r2 _ hrest
        | obj fields => rfl
        | undef => rfl
        | null => rfl
        | bool b => rfl
        | num n => rfl
        | str s => rfl
      · rw [Bool.not_eq_true] at hai
        rw [hai]
        simp only [Bool.false_eq_true, if_false]
        exact walkParts_reenter_free rest r1 r2 _ hrest

theorem getVF_fuel (f g : Nat) (v : JVal) (path : String)
    (hwf : wildcardFree (parsePath path) = true) :
    getVF (f + 1) v path = getVF (g + 1) v path := by
  rw [getVF_succ, getVF_succ]
  by_cases h1 : (truthy v = false || path = "") = true
  · rw [if_pos h1, if_pos h1]
  · rw [if_neg h1, if_neg h1]
    by_cases h2 : hasOwnProperty v path = true
    · rw [if_pos h2, if_pos h2]
    · rw [if_neg h2, if_neg h2]
      exact walkParts_reenter_free (parsePath path) (getVF f) (getVF g) v hwf

theorem JList.mapF_congr (f g : JVal → JVal) : ∀ (xs : JList),
    (∀ x, f x = g x) → xs.mapF f = xs.mapF g
  | .nil, _ => rfl
  | .cons x xs, h => by
    rw [JList.mapF, JList.mapF, h x, JList.mapF_congr f g xs h]

theorem hasEscSeq_cons_of (c : Char) (rest : List Char)
    (h : hasEscSeq rest = true) : hasEscSeq (c :: rest) = true := by
  rw [hasEscSeq.eq_def]
  split
  · rfl
  · rename_i heq
    obtain ⟨_, hr⟩ := List.cons.inj heq
    rw [← hr]
    exact h
  · rename_i heq
    simp at heq

theorem hasEscSeq_append_esc : ∀ (l r : List Char),
    hasEscSeq (l ++ '\\' :: '.' :: r) = true
  | [], _ => rfl
  | c :: l, r => hasEscSeq_cons_of c _ (hasEscSeq_append_esc l r)

theorem stripEscapes_esc (cs : List Char) :
    stripEscapes ('\\' :: '.' :: cs) = '.' :: stripEscapes cs := rfl

theorem stripEscapes_cons (c : Char) (cs : List Char)
    (h : ¬(c = '\\' ∧ cs.head? = some '.')) :
    stripEscapes (c :: cs) = c :: stripEscapes cs := by
  rw [stripEscapes.eq_def]
  split
  · rename_i heq
    obtain ⟨hc, hr⟩ := List.cons.inj heq
    exact absurd ⟨hc, by rw [hr]; rfl⟩ h
  · rename_i heq
    obtain ⟨hc, hr⟩ := List.cons.inj heq
    rw [hc, hr]
  · rename_i heq
    simp at heq

/-! ## The claims -/

/-- C1: a pipeline step whose transform or hook throws is caught at the
step boundary: the step performs no target write and no source removal (the
working document after the step is the document before it), the step is
reported as not applied, and the pipeline continues with the remaining
steps — the failure is never propagated to the caller of `build`. -/
theorem transformFailure_isolated (p : Plugin) (d : JVal) (post : List Plugin)
    (hcb : runCallbacks d p = .error ()) :
    (applyPlugin p d).1 = d
    ∧ (applyPlugin p d).2.applied = false
    ∧ buildLoop d (p :: post) = buildLoop d post := by
  have h := applyPlugin_error p d hcb
  refine ⟨by rw [h], by rw [h], ?_⟩
  show buildLoop (applyPlugin p d).1 post = buildLoop d post
  rw [h]

theorem transformFailure_isolated_witness :
    runCallbacks (jobj [("a", .num 1)]) pluginThrow = .error ()
    ∧ ((applyPlugin pluginThrow (jobj [("a", .num 1)])).1 = jobj [("a", .num 1)]
      ∧ (applyPlugin pluginThrow (jobj [("a", .num 1)])).2.applied = false
      ∧ buildLoop (jobj [("a", .num 1)]) [pluginThrow]
          = buildLoop (jobj [("a", .num 1)]) []) :=
  ⟨rfl, transformFailure_isolated pluginThrow (jobj [("a", .num 1)]) [] rfl⟩

/-- C4 counterexample: a bare `*` segment over a plain object, even as the
last segment, does not return the whole object — `isArrayWildcard` also
accepts `*`, so the array-wildcard branch fires first and yields
`undefined` on a non-array. -/
theorem objectWildcard_read_cex :
    getValueByPath (jobj [("a", .num 1)]) "*" = .undef
    ∧ JVal.undef ≠ jobj [("a", .num 1)] := by decide

/-- C4 (amended): the bare `*` segment is captured by the array-wildcard
test and reads as `undefined` on a plain object; the object-wildcard branch
fires only for the literal segment `.*.` (which `parsePath` can produce
only as the single segment of an escaped path), and there it returns the
whole object when last and otherwise maps the resolution of the remaining
path over every field. -/
theorem objectWildcard_read_amended (f : JProps)
    (hstar : JProps.aget f "*" = none) :
    getValueByPath (.obj f) "*" = .undef
    ∧ (∀ r : JVal → String → JVal, walkParts r (.obj f) [".*."] = .obj f)
    ∧ (∀ (r : JVal → String → JVal) (rest : List String), rest ≠ [] →
        walkParts r (.obj f) (".*." :: rest)
          = .obj (f.mapValsF (fun v => r v (joinDots rest)))) := by
  refine ⟨?_, ?_, ?_⟩
  · show getVF 2 (.obj f) "*" = .undef
    rw [getVF_succ]
    rw [if_neg (by simp [truthy])]
    rw [if_neg (by simp [hasOwnProperty, hstar])]
    rw [show parsePath "*" = ["*"] from by decide]
    rw [walkParts_cons]
    rw [if_neg (by simp)]
    rw [show isArrayWildcard "*" = true from by decide]
    rfl
  · intro r
    rw [walkParts_obj_wildcard r f ".*." [] (by decide) (by decide)]
    rfl
  · intro r rest hr
    rw [walkParts_obj_wildcard r f ".*." rest (by decide) (by decide)]
    rw [if_neg hr]

theorem objectWildcard_read_amended_witness :
    JProps.aget (JProps.cons "a" (.num 1) .nil) "*" = none
    ∧ (getValueByPath (.obj (JProps.cons "a" (.num 1) .nil)) "*" = .undef
      ∧ (∀ r : JVal → String → JVal,
          walkParts r (.obj (JProps.cons "a" (.num 1) .nil)) [".*."]
            = .obj (JProps.cons "a" (.num 1) .nil))
      ∧ (∀ (r : JVal → String → JVal) (rest : List String), rest ≠ [] →
          walkParts r (.obj (JProps.cons "a" (.num 1) .nil)) (".*." :: rest)
            = .obj ((JProps.cons "a" (.num 1) .nil).mapValsF
                (fun v => r v (joinDots rest))))) :=
  ⟨by decide,
    objectWildcard_read_amended (JProps.cons "a" (.num 1) .nil) (by decide)⟩

/-- Modelled from the spec: C5: a step whose source path resolves to
`undefined` uses its fallback when supplied (the fallback feeds the
transform and the target write), and is otherwise skipped entirely — the
document is returned untouched, so an absent target key stays absent. -/
theorem skipOnMissing_and_fallback (d : JVal) (source target : String)
    (tf : JVal → JVal) (fb : JVal)
    (hmiss : getValueByPath d source = .undef) :
    applyBrickModelled d source target none tf = d
    ∧ applyBrickModelled d source target (some fb) tf
        = setValueByPath d target (tf fb) := by
  constructor
  · unfold applyBrickModelled
    rw [hmiss]
  · unfold applyBrickModelled
    rw [hmiss]

theorem skipOnMissing_and_fallback_witness :
    getValueByPath (jobj [("x", .num 1)]) "missing" = .undef
    ∧ (applyBrickModelled (jobj [("x", .num 1)]) "missing" "t" none
          (fun v => v) = jobj [("x", .num 1)]
      ∧ applyBrickModelled (jobj [("x", .num 1)]) "missing" "t"
          (some (.num 7)) (fun v => v)
        = setValueByPath (jobj [("x", .num 1)]) "t" ((fun v => v) (.num 7))) :=
  ⟨by decide,
    skipOnMissing_and_fallback (jobj [("x", .num 1)]) "missing" "t"
      (fun v => v) (.num 7) (by decide)⟩

/-- C6 counterexample: with document `{a: [1, 2]}` and source path
`a[5][0]`, the parent walk fails at the out-of-range segment `[5]`, yet the
removal is not a no-op — the walk breaks with the parent still at the
array and the last segment `[0]` is spliced out of it. -/
theorem sourceRemover_cex :
    removeSource (jobj [("a", jarr [.num 1, .num 2])]) "a[5][0]"
      = jobj [("a", jarr [.num 2])]
    ∧ jobj [("a", jarr [.num 2])] ≠ jobj [("a", jarr [.num 1, .num 2])] := by
  decide

/-- C6 (amended): the source remover changes the document by at most one
removal: the result is either the document itself or differs from it by
exactly one array splice or one object key deletion at a single position —
located, when the parent walk breaks early, at the last value the walk
reached rather than at the addressed parent. -/
theorem sourceRemover_amended (doc : JVal) (path : String) :
    OneRemoval doc (removeSource doc path) :=
  oneRemoval_removeSource doc path

/-- C8: a wildcard read over an array field fans out per element: with the
field `arr` holding an array of `N` elements, `read(doc, "arr[*].x")` is an
array of exactly the `N` per-element reads of the remaining path, and each
wildcard adds one array level — the specification's nested-posts document
reads `user.posts[*].comments[*].id` back as `[[101, 102], [201]]`, never
flattened. -/
theorem wildcardCardinality (fields : JProps) (xs : JList) (ps : JProps)
    (h1 : JProps.aget fields "arr" = some (.arr xs ps))
    (h2 : JProps.aget fields "arr[*].x" = none) :
    getValueByPath (.obj fields) "arr[*].x"
        = .arr (xs.mapF (fun item => getValueByPath item "x")) .nil
    ∧ (xs.mapF (fun item => getValueByPath item "x")).length = xs.length
    ∧ getValueByPath docNestedPosts "user.posts[*].comments[*].id"
        = jarr [jarr [.num 101, .num 102], jarr [.num 201]] := by
  refine ⟨?_, JList.length_mapF _ xs, by decide⟩
  show getVF 9 (.obj fields) "arr[*].x" = _
  rw [getVF_succ]
  rw [if_neg (by simp [truthy])]
  rw [if_neg (by simp [hasOwnProperty, h2])]
  rw [show parsePath "arr[*].x" = ["arr", "[*]", "x"] from by decide]
  rw [walkParts_obj_regular (getVF 8) fields "arr" ["[*]", "x"]
    (by decide) (by decide) (by decide)]
  rw [show jsGetProp (.obj fields) "arr" = .arr xs ps from by
    simp [jsGetProp, h1]]
  rw [walkParts_arr_wildcard (getVF 8) xs ps "[*]" ["x"] (by decide)
    (by simp)]
  rw [JList.mapF_congr (fun item => getVF 8 item (joinDots ["x"]))
    (fun item => getValueByPath item "x") xs
    (fun x => getVF_fuel 7 1 x "x" (by decide))]

theorem wildcardCardinality_witness :
    JProps.aget (JProps.cons "arr"
        (.arr (JList.ofList [jobj [("x", .num 1)], jobj [("x", .num 2)]])
          .nil) .nil) "arr"
      = some (.arr (JList.ofList [jobj [("x", .num 1)], jobj [("x", .num 2)]])
          .nil)
    ∧ JProps.aget (JProps.cons "arr"
        (.arr (JList.ofList [jobj [("x", .num 1)], jobj [("x", .num 2)]])
          .nil) .nil) "arr[*].x" = none
    ∧ (getValueByPath (.obj (JProps.cons "arr"
          (.arr (JList.ofList [jobj [("x", .num 1)], jobj [("x", .num 2)]])
            .nil) .nil)) "arr[*].x"
        = .arr ((JList.ofList [jobj [("x", .num 1)], jobj [("x", .num 2)]]).mapF
            (fun item => getValueByPath item "x")) .nil
      ∧ ((JList.ofList [jobj [("x", .num 1)], jobj [("x", .num 2)]]).mapF
            (fun item => getValueByPath item "x")).length
        = (JList.ofList [jobj [("x", .num 1)], jobj [("x", .num 2)]]).length
      ∧ getValueByPath docNestedPosts "user.posts[*].comments[*].id"
        = jarr [jarr [.num 101, .num 102], jarr [.num 201]]) :=
  ⟨by decide, by decide,
    wildcardCardinality
      (JProps.cons "arr"
        (.arr (JList.ofList [jobj [("x", .num 1)], jobj [("x", .num 2)]])
          .nil) .nil)
      (JList.ofList [jobj [("x", .num 1)], jobj [("x", .num 2)]]) .nil
      (by decide) (by decide)⟩

/-- C9: a path whose character list contains the escaped separator `\.`
anywhere parses to a single literal segment, namely the whole path with
every `\.` replaced by `.` (escape pairs collapse to a dot, all other
characters pass through); the empty path parses to the empty segment
list. -/
theorem escapedPath_parse (p : String) (l r : List Char)
    (h : p.data = l ++ '\\' :: '.' :: r) :
    parsePath p = [String.mk (stripEscapes p.data)]
    ∧ (∀ cs, stripEscapes ('\\' :: '.' :: cs) = '.' :: stripEscapes cs)
    ∧ (∀ (c : Char) (cs : List Char), ¬(c = '\\' ∧ cs.head? = some '.') →
        stripEscapes (c :: cs) = c :: stripEscapes cs)
    ∧ parsePath "" = [] := by
  refine ⟨?_, stripEscapes_esc, stripEscapes_cons, by decide⟩
  have hne : p ≠ "" := by
    intro hp
    subst hp
    have h2 : ([] : List Char) = l ++ '\\' :: '.' :: r := h
    exact absurd h2.symm (by simp)
  have hesc : isEscapedPath p = true := by
    unfold isEscapedPath
    rw [h]
    exact hasEscSeq_append_esc l r
  unfold parsePath
  rw [if_neg hne, if_pos hesc]

theorem escapedPath_parse_witness :
    ("a\\.b" : String).data = ['a'] ++ '\\' :: '.' :: ['b']
    ∧ (parsePath "a\\.b" = [String.mk (stripEscapes ("a\\.b" : String).data)]
      ∧ (∀ cs, stripEscapes ('\\' :: '.' :: cs) = '.' :: stripEscapes cs)
      ∧ (∀ (c : Char) (cs : List Char), ¬(c = '\\' ∧ cs.head? = some '.') →
          stripEscapes (c :: cs) = c :: stripEscapes cs)
      ∧ parsePath "" = []) :=
  ⟨by decide, escapedPath_parse "a\\.b" ['a'] ['b'] (by decide)⟩

/-- C10: every applied step replaces the working document by its JSON round
trip before writing: the step's output is the copy-back of the
round-tripped, target-written (and possibly source-removed) document; the
round trip of any document is free of `undefined` everywhere (object keys
holding `undefined` are dropped and `undefined` array elements become
`null`), and this reaches locations unrelated to the step's paths, as the
concrete moved document shows. -/
theorem jsonRoundTrip_perStep (p : Plugin) (d : JVal) (tv : JVal)
    (hsv : ¬ getValueByPath d p.source = .undef)
    (hcb : runCallbacks d p = .ok tv) :
    (applyPlugin p d).1 = copyBack d
        (if p.source ≠ p.target ∧ p.keepSource = false
          then removeSource
            (setValueByPath (jsonRoundTrip d) p.target tv) p.source
          else setValueByPath (jsonRoundTrip d) p.target tv)
    ∧ undefFree (jsonRoundTrip d) = true
    ∧ (applyPlugin pluginMoveAB
        (jobj [("a", .num 1), ("junk", jobj [("u", .undef)]),
          ("arr", jarr [.undef])])).1
      = jobj [("junk", jobj []), ("arr", jarr [.null]), ("b", .num 1)] := by
  refine ⟨?_, ?_, by decide⟩
  · rw [applyPlugin_ok p d tv hsv hcb]
  · apply undefFree_jsonRoundTrip
    intro hd
    apply hsv
    subst hd
    show getVF (p.source.length + 1) .undef p.source = .undef
    rw [getVF_succ]
    rw [if_pos (by simp [truthy])]

theorem jsonRoundTrip_perStep_witness :
    (¬ getValueByPath (jobj [("a", .num 2)]) pluginMoveAB.source = .undef)
    ∧ runCallbacks (jobj [("a", .num 2)]) pluginMoveAB = .ok (.num 2)
    ∧ ((applyPlugin pluginMoveAB (jobj [("a", .num 2)])).1
        = copyBack (jobj [("a", .num 2)])
          (if pluginMoveAB.source ≠ pluginMoveAB.target
              ∧ pluginMoveAB.keepSource = false
            then removeSource
              (setValueByPath (jsonRoundTrip (jobj [("a", .num 2)]))
                pluginMoveAB.target (.num 2)) pluginMoveAB.source
            else setValueByPath (jsonRoundTrip (jobj [("a", .num 2)]))
              pluginMoveAB.target (.num 2))
      ∧ undefFree (jsonRoundTrip (jobj [("a", .num 2)])) = true
      ∧ (applyPlugin pluginMoveAB
          (jobj [("a", .num 1), ("junk", jobj [("u", .undef)]),
            ("arr", jarr [.undef])])).1
        = jobj [("junk", jobj []), ("arr", jarr [.null]), ("b", .num 1)]) :=
  ⟨by decide, rfl,
    jsonRoundTrip_perStep pluginMoveAB (jobj [("a", .num 2)]) (.num 2)
      (by decide) rfl⟩
